import Mathlib

/-!
Cancellation-record parser and statistics: a verification development.

This file gives a shallow embedding of the cancellation-record analysis of
the `presale-market-analysis` repository and proves the specification's
testable properties about it.

The repository's code operates on Python strings (sequences of Unicode code
points); we model a Python string as a `List Char` and an optional / nullable
cell value as an `Option (List Char)`.

Two notebook cells contain the cancellation logic present in the sources:

* the statistics cell (id `a6f706a1`):
    `total_transactions = len(transaction_df)`
    `normal_transactions = transaction_df['解約情形'].isnull().sum()`
    `cancelled_transactions = transaction_df['解約情形'].notna().sum()`
  followed by percentage printouts `normal/total*100` and `cancelled/total*100`;

* the pattern-analysis cell (id `2fc5b467`):
    `for cancel_str in cancelled_data.head(20):`
    `    if '全部解約' in str(cancel_str):`
    `        date_part = str(cancel_str).replace('全部解約', '').strip()`
    `        if date_part:`
    `            date_len = len(date_part.split(';')[0])`
    `            patterns[pattern] = patterns.get(pattern, 0) + 1`

The per-record parser `parse_cancellation(text) -> CancellationEvent`
announced by the second notebook (`2_cancellation_data_analysis.ipynb`,
outline item "解約解析函數實作與測試") is not present in the provided
sources; it is modelled from the specification, section 4.1, below.
-/

/-- The fully-cancelled marker literal `'全部解約'` ("fully cancelled"),
as a list of code points, exactly the Python string used by the code. -/
def marker : List Char := ['全', '部', '解', '約']

/-- Initial-segment test: `isPrefixL p l` is true when the list `p` starts `l`.
Boolean so that every use is executable. -/
def isPrefixL : List Char → List Char → Bool
  | [], _ => true
  | _ :: _, [] => false
  | a :: as, b :: bs => a = b && isPrefixL as bs

/-- Substring test modelling the Python membership test `pat in s`:
`pat` occurs contiguously somewhere in `s`. -/
def occursIn (pat : List Char) : List Char → Bool
  | [] => isPrefixL pat []
  | c :: cs => isPrefixL pat (c :: cs) || occursIn pat cs

/-- Splitting on the semicolon delimiter, modelling Python `s.split(';')`:
the maximal `';'`-free
segments of `s`, so that splitting `"a;b"` gives `["a","b"]` and
splitting `""` gives `[""]`. -/
def splitSemi : List Char → List (List Char)
  | [] => [[]]
  | c :: cs =>
    if c = ';' then [] :: splitSemi cs
    else
      match splitSemi cs with
      | [] => [[c]]
      | h :: t => (c :: h) :: t

/-- Marker removal, modelling Python `s.replace('全部解約', '')`: a single
left-to-right scan deleting every occurrence of the marker. -/
def removeMarker : List Char → List Char
  | '全' :: '部' :: '解' :: '約' :: rest => removeMarker rest
  | c :: cs => c :: removeMarker cs
  | [] => []

/-- Whitespace trimming, modelling Python `s.strip()`: remove leading and trailing
whitespace. -/
def trimWS (l : List Char) : List Char :=
  ((l.dropWhile Char.isWhitespace).reverse.dropWhile Char.isWhitespace).reverse

/-- Decimal value of a list of digit characters (the numeric reading of the
date token, e.g. `natOfDigits ['1','1','2'] = 112`). -/
def natOfDigits (l : List Char) : Nat :=
  l.foldl (fun n c => n * 10 + (c.toNat - 48)) 0

/-- A Gregorian calendar date. -/
structure GregDate where
  year : Nat
  month : Nat
  day : Nat
deriving DecidableEq, Repr

/-- The ROC-to-Gregorian year conversion: the Republic-of-China calendar
used by the Taiwanese data source counts years from 1911, so the Gregorian
year is the ROC year plus 1911 (spec, section 9: an explicit named
conversion step). -/
def rocYearToGregorian (rocYear : Nat) : Nat := rocYear + 1911

/-- Modelled from the spec: conversion of a date token to a calendar date
(spec, section 4.1, step 4).  When the token matches the expected 7-digit
`YYYMMDD` pattern, the date is year `YYY + 1911`, month `MM`, day `DD`;
any other token leaves the date absent. -/
def dateFromToken (t : List Char) : Option GregDate :=
  if t.length = 7 ∧ t.all Char.isDigit then
    some ⟨rocYearToGregorian (natOfDigits (t.take 3)),
          natOfDigits ((t.drop 3).take 2),
          natOfDigits (t.drop 5)⟩
  else none

/-- The structured cancellation record derived from one raw text cell
(spec, section 3).  `diag_token_len` is the diagnostic note of the date
token's length, recorded when the token could not be converted to a date
(spec, section 4.1, step 4 and the error policy of section 7). -/
structure CancellationEvent where
  raw : Option (List Char)
  is_cancelled : Bool
  cancelled_date : Option GregDate
  cancellation_count : Nat
  diag_token_len : Option Nat
deriving DecidableEq, Repr

/-- Modelled from the spec: the per-record cancellation parser
`parse_cancellation(text) -> CancellationEvent` (spec, section 4.1); the
second notebook announces its implementation ("解約解析函數實作與測試")
but the function body is absent from the provided sources.
Steps, following the spec:
1. absent or empty input gives a non-cancelled event;
2. split the input on `';'` into sub-records;
3. a sub-record counts as a cancellation entry when it bears the marker;
4. the date token is the first sub-record with the marker stripped and
   whitespace trimmed; a 7-digit all-numeric token becomes a date through
   `dateFromToken`, any other token leaves the date absent and records the
   token length as a diagnostic;
5. `cancellation_count` is the number of marker-bearing sub-records;
6. `is_cancelled` is true exactly when that count is positive. -/
def parse_cancellation (input : Option (List Char)) : CancellationEvent :=
  match input with
  | none => ⟨none, false, none, 0, none⟩
  | some s =>
    if s = [] then ⟨some s, false, none, 0, none⟩
    else
      let subs := splitSemi s
      let cnt := (subs.filter (fun r => occursIn marker r)).length
      if cnt = 0 then ⟨some s, false, none, 0, none⟩
      else
        let token := trimWS (removeMarker (subs.headD []))
        match dateFromToken token with
        | some d => ⟨some s, true, some d, cnt, none⟩
        | none => ⟨some s, true, none, cnt, some token.length⟩

/-- Batch parsing: one event per input cell, each derived independently
from its own string (spec, section 5: no shared mutable state). -/
def parseAll (col : List (Option (List Char))) : List CancellationEvent :=
  col.map parse_cancellation

/-- The summary produced by the statistics cell (id `a6f706a1`):
total row count, `isnull` count, `notna` count, and the cancellation
percentage `cancelled/total*100` that the cell prints.  The cell divides
by `total` unconditionally; on an empty table numpy evaluates `0/0` to
NaN (a non-number), which we represent as `none`. -/
structure CancellationStats where
  total : Nat
  normal : Nat
  cancelled : Nat
  cancelledPct : Option ℚ
deriving DecidableEq, Repr

/-- Embedding of the statistics cell (id `a6f706a1`, lines 518-524):
`total_transactions = len(transaction_df)`,
`normal_transactions = ...isnull().sum()`,
`cancelled_transactions = ...notna().sum()`, and the printed percentage
`cancelled_transactions/total_transactions*100`.  The division has no
zero guard in the source; `none` stands for the NaN that numpy produces
for `0/0` on an empty table. -/
def computeCancellationStats (col : List (Option (List Char))) : CancellationStats :=
  let total := col.length
  let normal := (col.filter (fun o => o.isNone)).length
  let cancelled := (col.filter (fun o => o.isSome)).length
  { total := total
    normal := normal
    cancelled := cancelled
    cancelledPct :=
      if total = 0 then none else some ((cancelled : ℚ) / (total : ℚ) * 100) }

/-- The cancellation rate as a fraction of 1 (the cell reports it scaled
by 100 as a percentage). -/
def CancellationStats.rate (s : CancellationStats) : Option ℚ :=
  s.cancelledPct.map (fun p => p / 100)

/-- Embedding of the per-string body of the pattern-analysis cell
(id `2fc5b467`): for a non-null cell value, the bucket it contributes to
the date-token-length histogram, when any.
`if '全部解約' in str(cancel_str): date_part = str(cancel_str).replace('全部解約','').strip();`
`if date_part: date_len = len(date_part.split(';')[0])`. -/
def bucketOf (s : List Char) : Option Nat :=
  if occursIn marker s then
    let datePart := trimWS (removeMarker s)
    if datePart = [] then none
    else some ((splitSemi datePart).headD []).length
  else none

/-- Embedding of the pattern-analysis cell's loop
(`for cancel_str in cancelled_data.head(20):`): the multiset of
token-length buckets collected from the first 20 non-null cancellation
strings (`cancelled_data` is the `notna()`-filtered column). -/
def patternBuckets (col : List (Option (List Char))) : List Nat :=
  ((col.filterMap id).take 20).filterMap bucketOf

/-- The histogram value of the pattern-analysis cell: how many of the
inspected strings fall in the bucket for token length `len`
(`patterns[pattern] = patterns.get(pattern, 0) + 1`). -/
def patternCount (col : List (Option (List Char))) (len : Nat) : Nat :=
  (patternBuckets col).count len

example :
    parse_cancellation (some (marker ++ ['1', '1', '2', '0', '3', '1', '5'])) =
      ⟨some (marker ++ ['1', '1', '2', '0', '3', '1', '5']), true,
        some ⟨2023, 3, 15⟩, 1, none⟩ := by decide

example :
    (parse_cancellation (some (marker ++ ['1', '1', '2', '0', '3', '1', '5']
        ++ [';'] ++ marker ++ ['1', '1', '3', '0', '1', '0', '1']))).cancellation_count
      = 2 := by decide

example :
    parse_cancellation (some (marker ++ ['A', 'B', 'C'])) =
      ⟨some (marker ++ ['A', 'B', 'C']), true, none, 1, some 3⟩ := by decide

example : parse_cancellation none = ⟨none, false, none, 0, none⟩ := by decide

example : parse_cancellation (some []) = ⟨some [], false, none, 0, none⟩ := by decide

example : computeCancellationStats [] = ⟨0, 0, 0, none⟩ := by decide

example :
    computeCancellationStats [some marker, none] =
      ⟨2, 1, 1, some ((1 : ℚ) / 2 * 100)⟩ := by
  simp [computeCancellationStats]

example : bucketOf marker = none := by decide

example : bucketOf (marker ++ ['1', '2', '3']) = some 3 := by decide

/-! Auxiliary lemmas about initial segments, occurrences and splitting -/

theorem isPrefixL_append_self (p l : List Char) : isPrefixL p (p ++ l) = true := by
  induction p with
  | nil => rfl
  | cons a as ih => simp [isPrefixL, ih]

theorem isPrefixL_mem {p s : List Char} (h : isPrefixL p s = true) :
    ∀ c ∈ p, c ∈ s := by
  induction p generalizing s with
  | nil => intro c hc; cases hc
  | cons a as ih =>
    cases s with
    | nil => cases h
    | cons b bs =>
      simp only [isPrefixL, Bool.and_eq_true, decide_eq_true_eq] at h
      intro c hc
      rcases List.mem_cons.mp hc with hc | hc
      · exact hc ▸ h.1 ▸ List.mem_cons_self _ _
      · exact List.mem_cons_of_mem _ (ih h.2 c hc)

theorem occursIn_mem {p s : List Char} (h : occursIn p s = true) :
    ∀ c ∈ p, c ∈ s := by
  induction s with
  | nil =>
    simp only [occursIn] at h
    intro c hc
    cases p with
    | nil => cases hc
    | cons a as => cases h
  | cons b bs ih =>
    simp only [occursIn, Bool.or_eq_true] at h
    rcases h with h | h
    · exact isPrefixL_mem h
    · intro c hc; exact List.mem_cons_of_mem _ (ih h c hc)

theorem occursIn_of_isPrefixL {p s : List Char} (h : isPrefixL p s = true) :
    occursIn p s = true := by
  cases s with
  | nil => simpa [occursIn] using h
  | cons b bs => simp [occursIn, h]

theorem isPrefixL_trans {a b c : List Char} (h1 : isPrefixL a b = true)
    (h2 : isPrefixL b c = true) : isPrefixL a c = true := by
  induction a generalizing b c with
  | nil => rfl
  | cons x xs ih =>
    cases b with
    | nil => cases h1
    | cons y ys =>
      cases c with
      | nil => cases h2
      | cons z zs =>
        simp only [isPrefixL, Bool.and_eq_true, decide_eq_true_eq] at h1 h2 ⊢
        exact ⟨h1.1.trans h2.1, ih h1.2 h2.2⟩

theorem isPrefixL_takeWhile_self (q : Char → Bool) (l : List Char) :
    isPrefixL (l.takeWhile q) l = true := by
  induction l with
  | nil => rfl
  | cons a as ih =>
    by_cases h : q a
    · simp [List.takeWhile_cons, h, isPrefixL, ih]
    · simp [List.takeWhile_cons, h, isPrefixL]

theorem isPrefixL_takeWhile {p l : List Char} (q : Char → Bool)
    (h : isPrefixL p l = true) (hq : ∀ c ∈ p, q c = true) :
    isPrefixL p (l.takeWhile q) = true := by
  induction p generalizing l with
  | nil => rfl
  | cons a as ih =>
    cases l with
    | nil => cases h
    | cons b bs =>
      simp only [isPrefixL, Bool.and_eq_true, decide_eq_true_eq] at h
      have hb : q b = true := h.1 ▸ hq a (List.mem_cons_self _ _)
      simp only [List.takeWhile_cons, hb, if_true, isPrefixL,
        Bool.and_eq_true, decide_eq_true_eq]
      exact ⟨h.1, ih h.2 (fun c hc => hq c (List.mem_cons_of_mem _ hc))⟩

theorem splitSemi_ne_nil (l : List Char) : splitSemi l ≠ [] := by
  cases l with
  | nil => simp [splitSemi]
  | cons c cs =>
    simp only [splitSemi]
    by_cases h : c = ';'
    · simp [h]
    · simp only [h, if_false]
      cases splitSemi cs <;> simp

theorem splitSemi_no_semi {l : List Char} (h : ';' ∉ l) : splitSemi l = [l] := by
  induction l with
  | nil => rfl
  | cons c cs ih =>
    have hc : ¬ c = ';' := fun hh => h (hh ▸ List.mem_cons_self _ _)
    have hcs : ';' ∉ cs := fun hh => h (List.mem_cons_of_mem _ hh)
    simp [splitSemi, hc, ih hcs]

theorem splitSemi_head (l : List Char) :
    ∃ t, splitSemi l = (l.takeWhile (fun c => decide (¬ c = ';'))) :: t := by
  induction l with
  | nil => exact ⟨[], rfl⟩
  | cons c cs ih =>
    by_cases h : c = ';'
    · subst h
      refine ⟨splitSemi cs, ?_⟩
      simp [splitSemi, List.takeWhile_cons]
    · obtain ⟨t, ht⟩ := ih
      refine ⟨t, ?_⟩
      simp [splitSemi, h, ht, List.takeWhile_cons]

theorem removeMarker_cons_ne {c : Char} {cs : List Char} (h : ¬ c = '全') :
    removeMarker (c :: cs) = c :: removeMarker cs := by
  rw [removeMarker.eq_def]
  split
  · rename_i rest heq
    injection heq with h1 htl
    exact absurd h1 h
  · rename_i heq
    injection heq with h1 h2
    rw [← h1, ← h2]
  · rename_i heq
    exact (List.cons_ne_nil _ _ heq).elim

theorem removeMarker_eq_self {t : List Char} (h : '全' ∉ t) :
    removeMarker t = t := by
  induction t with
  | nil => rfl
  | cons c cs ih =>
    have hc : ¬ c = '全' := fun hh => h (hh ▸ List.mem_cons_self _ _)
    have hcs : '全' ∉ cs := fun hh => h (List.mem_cons_of_mem _ hh)
    rw [removeMarker_cons_ne hc, ih hcs]

theorem removeMarker_marker_append (t : List Char) :
    removeMarker (marker ++ t) = removeMarker t := by
  rfl

theorem dropWhileWS_eq_self {l : List Char}
    (h : ∀ c ∈ l, c.isWhitespace = false) :
    l.dropWhile Char.isWhitespace = l := by
  cases l with
  | nil => rfl
  | cons c cs =>
    simp [List.dropWhile_cons, h c (List.mem_cons_self _ _)]

theorem trimWS_eq_self {l : List Char} (h : ∀ c ∈ l, c.isWhitespace = false) :
    trimWS l = l := by
  unfold trimWS
  rw [dropWhileWS_eq_self h]
  rw [dropWhileWS_eq_self (fun c hc => h c (List.mem_reverse.mp hc))]
  exact List.reverse_reverse l

theorem digit_not_whitespace {c : Char} (h : c.isDigit = true) :
    c.isWhitespace = false := by
  by_contra hw
  have hw' : c.isWhitespace = true := by
    cases hws : c.isWhitespace
    · exact absurd hws hw
    · rfl
  have hcase : ((c = ' ' ∨ c = '\t') ∨ c = '\r') ∨ c = '\n' := by
    simpa [Char.isWhitespace] using hw'
  rcases hcase with ((h' | h') | h') | h' <;> subst h' <;> simp [Char.isDigit] at h

/-- Membership of the marker in the whole string agrees with membership in
one of the semicolon-split pieces (the marker itself contains no `';'`). -/
theorem occursIn_splitSemi (s : List Char) :
    (splitSemi s).any (fun r => occursIn marker r) = occursIn marker s := by
  induction s with
  | nil => rfl
  | cons c cs ih =>
    by_cases hc : c = ';'
    · subst hc
      have hspl : splitSemi (';' :: cs) = [] :: splitSemi cs := by
        simp [splitSemi]
      have hpfx : isPrefixL marker (';' :: cs) = false := by
        simp only [marker, isPrefixL]
        rw [show decide ('全' = ';') = false by rfl]
        rw [Bool.false_and]
      have hr : occursIn marker (';' :: cs) = occursIn marker cs := by
        simp [occursIn, hpfx]
      have h0 : occursIn marker [] = false := by decide
      rw [hspl, hr, List.any_cons]
      simp [h0, ih]
    · obtain ⟨tl, htl⟩ := splitSemi_head cs
      have hspl : splitSemi (c :: cs) =
          (c :: cs.takeWhile (fun x => decide (¬ x = ';'))) :: tl := by
        simp [splitSemi, hc, htl]
      rw [hspl]
      have ihx : (occursIn marker (cs.takeWhile (fun x => decide (¬ x = ';')))
          || tl.any (fun r => occursIn marker r)) = occursIn marker cs := by
        have h' := ih
        rw [htl] at h'
        simpa [List.any_cons] using h'
      have fwd : isPrefixL marker
            (c :: cs.takeWhile (fun x => decide (¬ x = ';'))) = true →
          isPrefixL marker (c :: cs) = true := by
        intro hp
        refine isPrefixL_trans hp ?_
        have h2 : isPrefixL (cs.takeWhile (fun x => decide (¬ x = ';'))) cs = true :=
          isPrefixL_takeWhile_self _ _
        simp only [isPrefixL]
        rw [h2]
        simp
      have bwd : isPrefixL marker (c :: cs) = true →
          isPrefixL marker
            (c :: cs.takeWhile (fun x => decide (¬ x = ';'))) = true := by
        intro hq
        have hAll : ∀ x ∈ marker, (fun x => decide (¬ x = ';')) x = true := by
          decide
        have h1 : isPrefixL marker
            ((c :: cs).takeWhile (fun x => decide (¬ x = ';'))) = true :=
          isPrefixL_takeWhile _ hq hAll
        rw [List.takeWhile_cons] at h1
        rw [if_pos (show decide (¬ c = ';') = true by simpa using hc)] at h1
        exact h1
      have hpfx_iff : isPrefixL marker
            (c :: cs.takeWhile (fun x => decide (¬ x = ';'))) =
          isPrefixL marker (c :: cs) := by
        cases hp : isPrefixL marker (c :: cs.takeWhile (fun x => decide (¬ x = ';'))) with
        | false =>
          cases hq : isPrefixL marker (c :: cs) with
          | false => rfl
          | true =>
            have hb := bwd hq
            rw [hp] at hb
            exact Bool.noConfusion hb
        | true => exact (fwd hp).symm
      simp only [List.any_cons, occursIn]
      rw [hpfx_iff]
      rw [Bool.or_assoc, ihx]

theorem length_filter_isNone_add (col : List (Option (List Char))) :
    (col.filter (fun o => o.isNone)).length
      + (col.filter (fun o => o.isSome)).length = col.length := by
  induction col with
  | nil => rfl
  | cons o os ih => cases o <;> simp [List.filter_cons] <;> omega

/-- Skeleton evaluation of the parser on an input of the shape
`marker ++ token`, the canonical single-entry cancellation record: the
record is cancelled with count 1, and the date field is whatever
`dateFromToken` yields on the token. -/
theorem parse_marker_append (t : List Char) (hsemi : ';' ∉ t)
    (hzen : '全' ∉ t) (hws : ∀ c ∈ t, c.isWhitespace = false) :
    parse_cancellation (some (marker ++ t)) =
      match dateFromToken t with
      | some d => ⟨some (marker ++ t), true, some d, 1, none⟩
      | none => ⟨some (marker ++ t), true, none, 1, some t.length⟩ := by
  have hne : (marker ++ t) ≠ [] := by simp [marker]
  have hsem2 : ';' ∉ marker ++ t := by
    intro hmem
    rcases List.mem_append.mp hmem with hmem | hmem
    · simp [marker] at hmem
    · exact hsemi hmem
  have hspl : splitSemi (marker ++ t) = [marker ++ t] := splitSemi_no_semi hsem2
  have hocc : occursIn marker (marker ++ t) = true :=
    occursIn_of_isPrefixL (isPrefixL_append_self _ _)
  have hfil : (splitSemi (marker ++ t)).filter (fun r => occursIn marker r)
      = [marker ++ t] := by
    rw [hspl]
    simp [hocc]
  have htok : trimWS (removeMarker ((splitSemi (marker ++ t)).headD [])) = t := by
    rw [hspl]
    show trimWS (removeMarker (marker ++ t)) = t
    rw [removeMarker_marker_append, removeMarker_eq_self hzen, trimWS_eq_self hws]
  simp only [parse_cancellation]
  rw [if_neg hne]
  simp only [hfil, htok, List.length_cons, List.length_nil]
  norm_num

/-! Claim theorems -/

/-- C1: for every input consisting of the fully-cancelled marker followed
by a 7-digit token `YYYMMDD`, the parser returns a cancelled event with
cancellation count 1 whose date is the Gregorian date with
year `YYY + 1911`, month `MM` and day `DD`. -/
theorem C1_marker_seven_digit_token_gives_roc_date (t : List Char)
    (h7 : t.length = 7) (hd : t.all Char.isDigit = true) :
    parse_cancellation (some (marker ++ t)) =
      ⟨some (marker ++ t), true,
        some ⟨rocYearToGregorian (natOfDigits (t.take 3)),
              natOfDigits ((t.drop 3).take 2),
              natOfDigits (t.drop 5)⟩, 1, none⟩ := by
  have hdig : ∀ c ∈ t, c.isDigit = true := by
    intro c hc
    exact List.all_eq_true.mp hd c hc
  have hsemi : ';' ∉ t := by
    intro hmem
    exact absurd (hdig ';' hmem) (by decide)
  have hzen : '全' ∉ t := by
    intro hmem
    exact absurd (hdig '全' hmem) (by decide)
  have hws : ∀ c ∈ t, c.isWhitespace = false := fun c hc =>
    digit_not_whitespace (hdig c hc)
  rw [parse_marker_append t hsemi hzen hws]
  rw [dateFromToken, if_pos ⟨h7, hd⟩]

/-- C1 witness: the concrete scenario `"全部解約1120315"` yields a
cancelled event with count 1 and date 2023-03-15. -/
theorem C1_witness :
    parse_cancellation (some (marker ++ ['1', '1', '2', '0', '3', '1', '5'])) =
      ⟨some (marker ++ ['1', '1', '2', '0', '3', '1', '5']), true,
        some ⟨2023, 3, 15⟩, 1, none⟩ :=
  (C1_marker_seven_digit_token_gives_roc_date
    ['1', '1', '2', '0', '3', '1', '5'] (by decide) (by decide)).trans (by decide)

/-- C5: an input consisting of the marker followed by a malformed or
non-numeric date token (one not of the 7-digit all-numeric shape) never
fails: the parser returns a cancelled event with an absent date and the
token's length recorded as the diagnostic note.  (The embedding
`parse_cancellation` is a total function, so no input raises.) -/
theorem C5_malformed_token_degrades (t : List Char) (hsemi : ';' ∉ t)
    (hzen : '全' ∉ t) (hws : ∀ c ∈ t, c.isWhitespace = false)
    (hmal : ¬ (t.length = 7 ∧ t.all Char.isDigit = true)) :
    parse_cancellation (some (marker ++ t)) =
      ⟨some (marker ++ t), true, none, 1, some t.length⟩ := by
  rw [parse_marker_append t hsemi hzen hws]
  rw [dateFromToken, if_neg hmal]

/-- C5 witness: the concrete scenario `"全部解約ABC"` yields a cancelled
event with an absent date and diagnostic token length 3. -/
theorem C5_witness :
    parse_cancellation (some (marker ++ ['A', 'B', 'C'])) =
      ⟨some (marker ++ ['A', 'B', 'C']), true, none, 1, some 3⟩ :=
  (C5_malformed_token_degrades ['A', 'B', 'C'] (by decide) (by decide)
    (by decide) (by decide)).trans (by decide)

/-- C4: for every input whose semicolon-delimited sub-records each bear the
fully-cancelled marker, the parser's `cancellation_count` is the number of
sub-records. -/
theorem C4_count_equals_marked_subrecords (s : List Char)
    (hall : ∀ r ∈ splitSemi s, occursIn marker r = true) :
    (parse_cancellation (some s)).cancellation_count = (splitSemi s).length := by
  cases s with
  | nil =>
    have hmem : ([] : List Char) ∈ splitSemi [] := by simp [splitSemi]
    exact absurd (hall [] hmem) (by decide)
  | cons c cs =>
    have hne : (c :: cs : List Char) ≠ [] := by simp
    have hfil : (splitSemi (c :: cs)).filter (fun r => occursIn marker r)
        = splitSemi (c :: cs) := List.filter_eq_self.mpr hall
    have hlen0 : ((splitSemi (c :: cs)).filter (fun r => occursIn marker r)).length
        ≠ 0 := by
      rw [hfil]
      intro h0
      exact splitSemi_ne_nil _ (List.length_eq_zero.mp h0)
    simp only [parse_cancellation]
    rw [if_neg hne, if_neg hlen0]
    split
    · rw [hfil]
    · rw [hfil]

/-- C4 witness: the concrete scenario `"全部解約1120315;全部解約1130101"`
yields `cancellation_count = 2`. -/
theorem C4_witness :
    (parse_cancellation (some (marker ++ ['1', '1', '2', '0', '3', '1', '5', ';']
      ++ marker ++ ['1', '1', '3', '0', '1', '0', '1']))).cancellation_count = 2 :=
  (C4_count_equals_marked_subrecords
    (marker ++ ['1', '1', '2', '0', '3', '1', '5', ';']
      ++ marker ++ ['1', '1', '3', '0', '1', '0', '1'])
    (by decide)).trans (by decide)

/-- C6: an absent input or an empty input string parses to a non-cancelled
event: `is_cancelled = false`, no date, count 0. -/
theorem C6_absent_or_empty_not_cancelled (input : Option (List Char))
    (h : input = none ∨ input = some []) :
    (parse_cancellation input).is_cancelled = false ∧
    (parse_cancellation input).cancelled_date = none ∧
    (parse_cancellation input).cancellation_count = 0 := by
  rcases h with h | h <;> subst h <;> exact ⟨rfl, rfl, rfl⟩

/-- C6 witness: the absent input. -/
theorem C6_witness :
    (parse_cancellation none).is_cancelled = false ∧
    (parse_cancellation none).cancelled_date = none ∧
    (parse_cancellation none).cancellation_count = 0 :=
  C6_absent_or_empty_not_cancelled none (Or.inl rfl)

/-- Every event the parser returns is either non-cancelled with no date and
count 0, or cancelled with a positive count. -/
theorem parse_event_shape (input : Option (List Char)) :
    ((parse_cancellation input).is_cancelled = false ∧
      (parse_cancellation input).cancelled_date = none ∧
      (parse_cancellation input).cancellation_count = 0) ∨
    ((parse_cancellation input).is_cancelled = true ∧
      1 ≤ (parse_cancellation input).cancellation_count) := by
  cases input with
  | none => exact Or.inl ⟨rfl, rfl, rfl⟩
  | some s =>
    simp only [parse_cancellation]
    split
    · exact Or.inl ⟨rfl, rfl, rfl⟩
    · split
      · exact Or.inl ⟨rfl, rfl, rfl⟩
      · rename_i h0
        split
        · exact Or.inr ⟨rfl, Nat.one_le_iff_ne_zero.mpr h0⟩
        · exact Or.inr ⟨rfl, Nat.one_le_iff_ne_zero.mpr h0⟩

/-- C7: both data-model invariants hold for every parsed event: a
non-cancelled event has no date and count 0, and a positive count forces
`is_cancelled = true`. -/
theorem C7_event_invariants (input : Option (List Char)) :
    ((parse_cancellation input).is_cancelled = false →
      (parse_cancellation input).cancelled_date = none ∧
      (parse_cancellation input).cancellation_count = 0) ∧
    (1 ≤ (parse_cancellation input).cancellation_count →
      (parse_cancellation input).is_cancelled = true) := by
  rcases parse_event_shape input with ⟨h1, h2, h3⟩ | ⟨h1, h2⟩
  · refine ⟨fun _ => ⟨h2, h3⟩, fun hc => ?_⟩
    rw [h3] at hc
    exact absurd hc (by decide)
  · refine ⟨fun hf => ?_, fun _ => h1⟩
    rw [h1] at hf
    exact Bool.noConfusion hf

/-- C7 witness: at the concrete cancelled input `"全部解約1120315"`, the
count is positive and the second invariant forces `is_cancelled = true`. -/
theorem C7_witness :
    (parse_cancellation (some (marker ++ ['1', '1', '2', '0', '3', '1', '5']))).is_cancelled
      = true :=
  (C7_event_invariants
    (some (marker ++ ['1', '1', '2', '0', '3', '1', '5']))).2 (by decide)

/-- C9: parsing is a pure function of the single input record: in any batch,
the event produced at the position of input `x` is `parse_cancellation x`,
with no dependence on the records parsed before (`pre`) or after (`post`).
In particular two parses of the same string yield identical events. -/
theorem C9_parse_deterministic (pre post : List (Option (List Char)))
    (x : Option (List Char)) :
    (parseAll (pre ++ x :: post))[pre.length]? = some (parse_cancellation x) := by
  unfold parseAll
  rw [List.map_append]
  rw [List.getElem?_append_right (by simp)]
  simp

/-- C3: the parsed event is cancelled exactly when the raw text is present
(non-null and non-empty) and contains the fully-cancelled marker as a
substring; a present text without the marker is not classified as
cancelled. -/
theorem C3_cancelled_iff_marker_present (input : Option (List Char)) :
    (parse_cancellation input).is_cancelled = true ↔
      ∃ s, input = some s ∧ s ≠ [] ∧ occursIn marker s = true := by
  cases input with
  | none => simp [parse_cancellation]
  | some s =>
    by_cases hs : s = []
    · subst hs
      simp [parse_cancellation]
    · have key : (((splitSemi s).filter (fun r => occursIn marker r)).length = 0)
          ↔ (occursIn marker s = false) := by
        rw [List.length_eq_zero, List.filter_eq_nil_iff, ← occursIn_splitSemi s]
        cases hany : (splitSemi s).any (fun r => occursIn marker r) with
        | true =>
          obtain ⟨r, hr, hpr⟩ := List.any_eq_true.mp hany
          constructor
          · intro hforall
            exact absurd hpr (hforall r hr)
          · intro hft
            exact Bool.noConfusion hft
        | false =>
          constructor
          · intro _
            rfl
          · intro _ r hr hpr
            have hx : (splitSemi s).any (fun r => occursIn marker r) = true :=
              List.any_eq_true.mpr ⟨r, hr, hpr⟩
            rw [hany] at hx
            exact Bool.noConfusion hx
      simp only [parse_cancellation]
      rw [if_neg hs]
      by_cases h0 : ((splitSemi s).filter (fun r => occursIn marker r)).length = 0
      · rw [if_pos h0]
        have hocc := key.mp h0
        constructor
        · intro hf
          exact Bool.noConfusion hf
        · rintro ⟨s', hs', _, hocc'⟩
          injection hs' with hss
          rw [← hss] at hocc'
          rw [hocc] at hocc'
          exact Bool.noConfusion hocc'
      · rw [if_neg h0]
        have hocc : occursIn marker s = true := by
          cases hb : occursIn marker s with
          | false => exact absurd (key.mpr hb) h0
          | true => rfl
        split
        · exact ⟨fun _ => ⟨s, rfl, hs, hocc⟩, fun _ => rfl⟩
        · exact ⟨fun _ => ⟨s, rfl, hs, hocc⟩, fun _ => rfl⟩

/-- C2: evaluation of the statistics cell at the failing input, the empty
collection.  The total is 0, but the cancellation percentage is `none`
(the NaN that numpy produces for the unguarded division `0/0` at
lines 523-524), not the defined rate 0 that the claim and the
specification's error policy require. -/
theorem C2_empty_collection_rate_undefined :
    computeCancellationStats [] =
        { total := 0, normal := 0, cancelled := 0, cancelledPct := none } ∧
      (computeCancellationStats []).cancelledPct ≠ some 0 ∧
      (computeCancellationStats []).rate ≠ some 0 := by
  refine ⟨rfl, fun h => ?_, fun h => ?_⟩
  · exact Option.noConfusion h
  · exact Option.noConfusion h

/-- C8: over a collection of `k` records of which `c` are cancelled
(`k > 0`), the statistics cell reports total `k`, cancelled `c`,
non-cancelled `k - c`, a percentage of exactly `(c / k) * 100` — that is,
a rate of exactly `c / k` — and the whole summary is invariant under any
permutation of the collection (the reduction is order-independent). -/
theorem C8_aggregation_exact_and_permutation_invariant
    (col col' : List (Option (List Char))) (k c : Nat)
    (hk : col.length = k)
    (hc : (col.filter (fun o => o.isSome)).length = c)
    (hpos : 0 < k) (hperm : col.Perm col') :
    (computeCancellationStats col).total = k ∧
    (computeCancellationStats col).cancelled = c ∧
    (computeCancellationStats col).normal = k - c ∧
    (computeCancellationStats col).cancelledPct = some ((c : ℚ) / (k : ℚ) * 100) ∧
    (computeCancellationStats col).rate = some ((c : ℚ) / (k : ℚ)) ∧
    computeCancellationStats col = computeCancellationStats col' := by
  have hknz : ¬ k = 0 := by omega
  have hnormal : (col.filter (fun o => o.isNone)).length = k - c := by
    have hsum := length_filter_isNone_add col
    omega
  have hpct : (computeCancellationStats col).cancelledPct
      = some ((c : ℚ) / (k : ℚ) * 100) := by
    simp only [computeCancellationStats, hc, hk]
    rw [if_neg hknz]
  refine ⟨by simp [computeCancellationStats, hk],
          by simp [computeCancellationStats, hc],
          by simp [computeCancellationStats, hnormal],
          hpct, ?_, ?_⟩
  · rw [CancellationStats.rate, hpct]
    have hq : (c : ℚ) / (k : ℚ) * 100 / 100 = (c : ℚ) / (k : ℚ) := by
      rw [mul_div_assoc]
      norm_num
    simp [hq]
  · have e1 : col'.length = col.length := hperm.length_eq.symm
    have e2 : (col'.filter (fun o => o.isSome)).length
        = (col.filter (fun o => o.isSome)).length :=
      (hperm.filter _).length_eq.symm
    have e3 : (col'.filter (fun o => o.isNone)).length
        = (col.filter (fun o => o.isNone)).length :=
      (hperm.filter _).length_eq.symm
    simp [computeCancellationStats, e1, e2, e3]

/-- C8 witness: a two-record collection with one cancelled record and its
reversal. -/
theorem C8_witness :
    (computeCancellationStats [some ['x'], none]).total = 2 ∧
    (computeCancellationStats [some ['x'], none]).cancelled = 1 ∧
    (computeCancellationStats [some ['x'], none]).normal = 2 - 1 ∧
    (computeCancellationStats [some ['x'], none]).cancelledPct
      = some ((1 : ℚ) / (2 : ℚ) * 100) ∧
    (computeCancellationStats [some ['x'], none]).rate = some ((1 : ℚ) / (2 : ℚ)) ∧
    computeCancellationStats [some ['x'], none]
      = computeCancellationStats [none, some ['x']] :=
  C8_aggregation_exact_and_permutation_invariant
    [some ['x'], none] [none, some ['x']] 2 1 (by decide) (by decide)
    (by decide) (by decide)

/-- C10: the diagnostic token-length histogram of the pattern-analysis cell
is computed from at most the first 20 non-null cancellation strings: once a
collection already holds 20 non-null strings, appending further records
never changes any bucket; and a string that contains the marker but whose
remainder is empty after stripping it contributes no bucket at all. -/
theorem C10_histogram_window_and_empty_remainder
    (col extra : List (Option (List Char)))
    (h20 : 20 ≤ (col.filterMap id).length)
    (s : List Char) (hm : occursIn marker s = true)
    (he : trimWS (removeMarker s) = []) :
    patternBuckets (col ++ extra) = patternBuckets col ∧ bucketOf s = none := by
  constructor
  · unfold patternBuckets
    rw [List.filterMap_append, List.take_append_eq_append_take]
    rw [Nat.sub_eq_zero_of_le h20, List.take_zero, List.append_nil]
  · unfold bucketOf
    rw [if_pos hm, if_pos he]

/-- C10 witness: a collection of exactly 20 non-null strings, an appended
extra record, and the bare marker string (whose stripped remainder is
empty). -/
theorem C10_witness :
    patternBuckets (List.replicate 20 (some ['x']) ++ [none])
        = patternBuckets (List.replicate 20 (some ['x'])) ∧
      bucketOf marker = none :=
  C10_histogram_window_and_empty_remainder
    (List.replicate 20 (some ['x'])) [none] (by decide) marker (by decide)
    (by decide)
